import Mathlib

/-!
Verification of the tab-sorter extension's extraction-and-sort pipeline.

The definitions below are a shallow embedding of the TypeScript sources:

  * src/types.ts                      — data model (SortKey, TabInfo)
  * src/utils/parsing.ts              — parseValue and its helpers
  * src/background/sorting.ts         — createComparator, stableSort
  * src/background/sortOperations.ts  — performSort, extractValuesFromTabs
  * src/background/tabs.ts            — getTargetTabs, moveTabs
  * src/config/constants.ts           — TIMEOUTS, LIMITS

JavaScript numbers are modelled as exact rationals, host library functions
(parseFloat, String.prototype.localeCompare, the Date constructor, the RegExp
engine) are modelled by explicit Lean functions or parameters, and the
asynchronous orchestration is modelled by explicit completion oracles.
-/

/-- The parseAs field of a sort key: src/types.ts, ParseType. -/
inductive ParseType where
  | number
  | price
  | date
  | text
deriving DecidableEq

/-- Sort direction: src/types.ts, "asc" or "desc". -/
inductive Direction where
  | asc
  | desc
deriving DecidableEq

/-- Missing-value policy, the string union "last" or "first" or "error" from
src/background/sorting.ts. -/
inductive MissingValuePolicy where
  | last
  | first
  | error
deriving DecidableEq

/-- A single sort key: src/types.ts, SortKey.  Optional fields are Options;
the source field named "attribute" is called attr here because the source
name is a reserved word in Lean. -/
structure SortKey where
  selector : Option String := none
  attr : Option String := none
  parseAs : Option ParseType := none
  direction : Direction := Direction.asc
deriving DecidableEq

/-- A tab together with its extracted raw value: src/background/sorting.ts,
TabWithValue (TabInfo plus extractedValue and rawText).  The index field is
the tab's position in its browser window at collection time. -/
structure TabWithValue where
  id : Int
  title : String := ""
  url : String := ""
  index : Int := 0
  pinned : Bool := false
  windowId : Int := 0
  groupId : Option Int := none
  extractedValue : Option String := none
  rawText : Option String := none
deriving DecidableEq

/-- A typed comparison value, the possible non-null results of parseValue in
src/utils/parsing.ts: a JS number (modelled as an exact rational), a Date
(modelled by its epoch-milliseconds timestamp), or a string. -/
inductive ParsedValue where
  | num (value : ℚ)
  | date (epochMillis : Int)
  | str (value : String)
deriving DecidableEq

/-- Value of a digit string, most significant digit first. -/
def digitsToNat (l : List Char) : ℕ :=
  l.foldl (fun n c => 10 * n + (c.toNat - 48)) 0

/-- Model of the JS String.prototype.toLowerCase, character-wise lowering
(JS locale-independent lowering agrees with this on ASCII, the range the
comparator claims exercise). -/
def jsToLower (s : String) : String :=
  String.mk (s.toList.map Char.toLower)

/-- Whitespace characters removed by the JS String.prototype.trim model. -/
def isJsWhitespace (c : Char) : Bool :=
  c == ' ' || c == '\t' || c == '\n' || c == '\r'

/-- Model of the JS String.prototype.trim: strip whitespace from both
ends. -/
def jsTrim (s : String) : String :=
  String.mk (((s.toList.dropWhile isJsWhitespace).reverse.dropWhile isJsWhitespace).reverse)

/-- Does the first list start with the second? -/
def listBeginsWith : List Char → List Char → Bool
  | _, [] => true
  | [], _ :: _ => false
  | a :: as, b :: bs => a == b && listBeginsWith as bs

/-- String version of listBeginsWith, a kernel-evaluable model of
String.startsWith. -/
def beginsWith (s pre : String) : Bool :=
  listBeginsWith s.toList pre.toList

/-- Does the first list contain the second as a contiguous run?  A
kernel-evaluable model of the JS String.prototype.includes. -/
def hasRun : List Char → List Char → Bool
  | [], needle => needle.isEmpty
  | c :: rest, needle => listBeginsWith (c :: rest) needle || hasRun rest needle

/-- Split a character list at every occurrence of the given separator, a
kernel-evaluable model of String.split with a one-character separator. -/
def splitOnChar (sep : Char) : List Char → List (List Char)
  | [] => [[]]
  | c :: cs =>
    let rest := splitOnChar sep cs
    if c == sep then [] :: rest
    else
      match rest with
      | [] => [[c]]
      | g :: gs => (c :: g) :: gs

/-- Subtraction on rationals, written out on numerators and denominators so
that the kernel can evaluate it on concrete values; proved equal to the
ambient subtraction in ratSub_eq below. -/
def ratSub (a b : ℚ) : ℚ :=
  Rat.divInt (a.num * (b.den : ℤ) - b.num * (a.den : ℤ)) ((a.den : ℤ) * (b.den : ℤ))

/-- Negation on rationals, written out on the numerator so that the kernel
can evaluate it on concrete values; proved equal to the ambient negation in
ratNeg_eq below. -/
def ratNeg (a : ℚ) : ℚ :=
  Rat.divInt (-a.num) (a.den : ℤ)

/-- Model of the host parseFloat on strings drawn from digits, dots and
commas (the only inputs the parsing code feeds it): parse the longest
leading decimal literal, made of an integer part, an optional dot and a
fraction part; none when no digit is read (parseFloat returns NaN there).
parseFloat stops at the first character that cannot extend the literal, so
a second dot or any comma ends the parse.  The value intVal + fracVal/10^k
is built with Rat.divInt so that it evaluates in the kernel. -/
def parseFloatLeading (s : String) : Option ℚ :=
  let cs := s.toList
  let intPart := cs.takeWhile Char.isDigit
  let rest := cs.dropWhile Char.isDigit
  match rest with
  | '.' :: rest2 =>
    let fracPart := rest2.takeWhile Char.isDigit
    if intPart.isEmpty && fracPart.isEmpty then none
    else some (Rat.divInt
      ((digitsToNat intPart : ℤ) * 10 ^ fracPart.length + (digitsToNat fracPart : ℤ))
      (10 ^ fracPart.length))
  | _ => if intPart.isEmpty then none else some (digitsToNat intPart : ℚ)

/-- First maximal run of characters matching the character class of the
regular expression /[\d.]+/ used by parseNumberValue. -/
def firstNumericRun (s : String) : Option String :=
  let isNumChar := fun c => Char.isDigit c || c == '.'
  let cs := s.toList.dropWhile (fun c => !(isNumChar c))
  match cs with
  | [] => none
  | _ => some (String.mk (cs.takeWhile isNumChar))

/-- src/utils/parsing.ts, parseNumberValue: match /[\d.]+/, parseFloat the
match, null when there is no match or the result is NaN. -/
def parseNumberValue (text : String) : Option ℚ :=
  match firstNumericRun text with
  | none => none
  | some run => parseFloatLeading run

/-- Remove the first comma of a character list, mirroring the semantics of
the JS call cleaned.replace(String, String), which replaces only the first
occurrence of a string pattern. -/
def removeFirstComma : List Char → List Char
  | [] => []
  | c :: cs => if c == ',' then cs else c :: removeFirstComma cs

/-- src/utils/parsing.ts, parsePriceValue: keep only digits, dots and
commas; then normalized = cleaned.replace(',', ''), which drops only the
FIRST comma; parseFloat the result, null on NaN. -/
def parsePriceValue (text : String) : Option ℚ :=
  let cleaned := text.toList.filter (fun c => Char.isDigit c || c == '.' || c == ',')
  let normalized := removeFirstComma cleaned
  parseFloatLeading (String.mk normalized)

/-- Days between 1970-01-01 and the given civil date (proleptic Gregorian
calendar). -/
def daysFromCivil (y m d : Int) : Int :=
  let yAdj := if m ≤ 2 then y - 1 else y
  let era := (if yAdj ≥ 0 then yAdj else yAdj - 399) / 400
  let yoe := yAdj - era * 400
  let mp := (m + 9) % 12
  let doy := (153 * mp + 2) / 5 + d - 1
  let doe := yoe * 365 + yoe / 4 - yoe / 100 + doy
  era * 146097 + doe - 719468

/-- Model of the host Date constructor used by parseDateValue in
src/utils/parsing.ts: an ISO date string of shape YYYY-MM-DD parses to the
UTC-midnight timestamp in milliseconds; every other shape is modelled as
unparseable (the host accepts more formats, but no claim depends on which
strings beyond ISO dates parse). -/
def jsDateParse (s : String) : Option Int :=
  match splitOnChar '-' s.toList with
  | [ys, ms, ds] =>
    if ys.length = 4 && ys.all Char.isDigit &&
       ms.length = 2 && ms.all Char.isDigit &&
       ds.length = 2 && ds.all Char.isDigit then
      let y := (digitsToNat ys : Int)
      let m := (digitsToNat ms : Int)
      let d := (digitsToNat ds : Int)
      if 1 ≤ m && m ≤ 12 && 1 ≤ d && d ≤ 31 then
        some (daysFromCivil y m d * 86400000)
      else none
    else none
  | _ => none

/-- src/utils/parsing.ts, parseValue: null and undefined give null; else
the value is stringified, trimmed and parsed per the requested type, where
the switch default (text, or no parseAs at all) lowercases the trimmed
string. -/
def parseValue (value : Option String) (parseAs : Option ParseType) : Option ParsedValue :=
  match value with
  | none => none
  | some v =>
    let stringValue := jsTrim v
    match parseAs with
    | some ParseType.number => (parseNumberValue stringValue).map ParsedValue.num
    | some ParseType.price => (parsePriceValue stringValue).map ParsedValue.num
    | some ParseType.date => (jsDateParse stringValue).map ParsedValue.date
    | some ParseType.text => some (ParsedValue.str (jsToLower stringValue))
    | none => some (ParsedValue.str (jsToLower stringValue))

theorem ratSub_eq (a b : ℚ) : ratSub a b = a - b := by
  unfold ratSub
  have ha : ((a.den : ℚ)) ≠ 0 := by exact_mod_cast a.den_nz
  have hb : ((b.den : ℚ)) ≠ 0 := by exact_mod_cast b.den_nz
  rw [Rat.divInt_eq_div]
  push_cast
  conv_rhs => rw [← Rat.num_div_den a, ← Rat.num_div_den b]
  rw [div_sub_div _ _ ha hb]
  congr 1
  ring

theorem ratNeg_eq (a : ℚ) : ratNeg a = -a := by
  unfold ratNeg
  rw [← Rat.neg_divInt, Rat.num_divInt_den]

example : parsePriceValue "$1,234.56" = some (Rat.divInt 123456 100) := by decide
example : parseNumberValue "abc 12.5 u" = some (Rat.divInt 125 10) := by decide

/-- Length bound used for the tokenizer's termination. -/
theorem dropWhile_length_le {α : Type} (p : α → Bool) (l : List α) :
    (l.dropWhile p).length ≤ l.length := by
  induction l with
  | nil => simp
  | cons c cs ih =>
    by_cases h : p c
    · simp only [List.dropWhile, h]
      exact Nat.le_succ_of_le ih
    · simp [List.dropWhile, h]

/-- Tokenizer for the numeric-aware string comparison: maximal digit runs
become numbers, all other characters stand alone. -/
def lcTokens : List Char → List (ℕ ⊕ Char)
  | [] => []
  | c :: cs =>
    if c.isDigit then
      Sum.inl (digitsToNat (c :: cs.takeWhile Char.isDigit)) :: lcTokens (cs.dropWhile Char.isDigit)
    else
      Sum.inr c :: lcTokens cs
termination_by l => l.length
decreasing_by
  · simp only [List.length_cons]
    exact Nat.lt_succ_of_le (dropWhile_length_le _ _)
  · simp

/-- Token order: digit runs compare numerically, a number sorts before any
other character, other characters compare by code point. -/
def tokCmp : ℕ ⊕ Char → ℕ ⊕ Char → Ordering
  | Sum.inl n, Sum.inl m => compare n m
  | Sum.inl _, Sum.inr _ => Ordering.lt
  | Sum.inr _, Sum.inl _ => Ordering.gt
  | Sum.inr c, Sum.inr d => compare c d

/-- Lexicographic comparison of token lists. -/
def lexTokCmp : List (ℕ ⊕ Char) → List (ℕ ⊕ Char) → Ordering
  | [], [] => Ordering.eq
  | [], _ :: _ => Ordering.lt
  | _ :: _, [] => Ordering.gt
  | a :: as, b :: bs =>
    match tokCmp a b with
    | Ordering.eq => lexTokCmp as bs
    | o => o

/-- Model of String.prototype.localeCompare(other, undefined, numeric true,
sensitivity base) as called by createComparator: case differences are
erased (modelled by toLower, which covers base sensitivity for ASCII) and
digit runs compare as numbers.  Result is in minus one, zero, one. -/
def localeCompareModel (a b : String) : Int :=
  match lexTokCmp (lcTokens (jsToLower a).toList) (lcTokens (jsToLower b).toList) with
  | Ordering.lt => -1
  | Ordering.eq => 0
  | Ordering.gt => 1

/-- Model of the JS String() conversion applied to a parsed value in the
string branch of the comparator.  For values produced by parseValue that
branch only ever receives strings (number and price yield numbers, which
take the numeric branch; date yields Dates, which take the date branch), so
the renderings of the other two constructors are unreachable models. -/
def jsStringOfParsed : ParsedValue → String
  | ParsedValue.str s => s
  | ParsedValue.num q => toString q.num ++ (if q.den = 1 then "" else "/" ++ toString q.den)
  | ParsedValue.date ms => toString ms

/-- The comparison value computed by createComparator for two non-null
parsed values of one key, before direction negation: Dates under a date key
compare by getTime difference, two numbers by subtraction, anything else by
the stringified localeCompare.  Mirrors the if-chain in
src/background/sorting.ts lines 31 to 42. -/
def rawComparison (key : SortKey) (aVal bVal : ParsedValue) : ℚ :=
  match key.parseAs, aVal, bVal with
  | some ParseType.date, ParsedValue.date x, ParsedValue.date y => ((x - y : ℤ) : ℚ)
  | _, ParsedValue.num x, ParsedValue.num y => ratSub x y
  | _, a, b => ((localeCompareModel (jsStringOfParsed a) (jsStringOfParsed b) : ℤ) : ℚ)

/-- The key loop of the comparator returned by createComparator in
src/background/sorting.ts: parse both sides under the key, skip the key
when both are null, resolve per policy when exactly one is null (the last
policy sends the null side after, anything else sends it before), otherwise
compare and negate for a descending key; when every key ties fall back to
the difference of the tabs' window position indices. -/
def comparatorLoop (missingValuePolicy : MissingValuePolicy) (a b : TabWithValue) :
    List SortKey → ℚ
  | [] => ((a.index - b.index : ℤ) : ℚ)
  | key :: rest =>
    match parseValue a.extractedValue key.parseAs, parseValue b.extractedValue key.parseAs with
    | none, none => comparatorLoop missingValuePolicy a b rest
    | none, some _ => if missingValuePolicy = MissingValuePolicy.last then 1 else -1
    | some _, none => if missingValuePolicy = MissingValuePolicy.last then -1 else 1
    | some aVal, some bVal =>
      let comparison := rawComparison key aVal bVal
      if comparison ≠ 0 then
        (if key.direction = Direction.desc then ratNeg comparison else comparison)
      else comparatorLoop missingValuePolicy a b rest

/-- src/background/sorting.ts, createComparator. -/
def createComparator (sortKeys : List SortKey) (missingValuePolicy : MissingValuePolicy)
    (a b : TabWithValue) : ℚ :=
  comparatorLoop missingValuePolicy a b sortKeys

/-- The comparator that stableSort hands to the host sort: the caller's
comparator, with ties broken by the position of each element in the input
array (the a.index minus b.index of the indexed wrapper objects). -/
def effectiveCompare {α : Type} (comparator : α → α → ℚ) (x y : ℕ × α) : ℚ :=
  let result := comparator x.2 y.2
  if result ≠ 0 then result else (((x.1 : ℤ) - (y.1 : ℤ) : ℤ) : ℚ)

/-- src/background/sorting.ts, stableSort: wrap every element with its
input position, sort with the tie-broken comparator, unwrap.  The host
Array.prototype.sort is modelled by insertion sort; since the tie-broken
comparator is a total order with no distinct ties, any correct sort of the
wrapped list produces this unique output. -/
def stableSort {α : Type} (array : List α) (comparator : α → α → ℚ) : List α :=
  (List.insertionSort (fun x y => effectiveCompare comparator x y ≤ 0) array.enum).map Prod.snd

/-- One extraction outcome: src/types.ts, ExtractedValue.  The diagnostics
object is flattened to its notes field, the only part the pipeline reads. -/
structure ExtractedValue where
  tabId : Int
  value : Option String
  rawText : Option String := none
  notes : Option String := none
deriving DecidableEq

/-- Environment closing over everything outside the orchestrator's own
control flow: the oracle gives the ExtractedValue that extractValueFromTab
resolves with for a tab, selector and attribute; withinTabTimeout says
whether that resolution wins the per-tab five-second race in
extractValuesFromTabs; beforeGlobalTimeout says whether the tab's promise
settles before the global twenty-second timer. -/
structure ExtractionEnv where
  oracle : Int → String → Option String → ExtractedValue
  withinTabTimeout : Int → Bool
  beforeGlobalTimeout : Int → Bool

/-- JS truthiness test of sortKey.selector: both an absent selector and the
empty string are falsy. -/
def selectorFalsy (key : SortKey) : Bool :=
  match key.selector with
  | none => true
  | some s => s == ""

/-- The per-tab branch of extractValuesFromTabs in
src/background/sortOperations.ts: a falsy selector short-circuits to a null
value with the 'No selector provided' note without contacting the tab at
all; otherwise the extraction races the per-tab timeout, and a lost race is
caught and converted to a null value with a timeout note. -/
def extractOne (env : ExtractionEnv) (sortKey : SortKey) (tab : TabWithValue) :
    ExtractedValue :=
  if selectorFalsy sortKey then
    { tabId := tab.id, value := none, notes := some "No selector provided" }
  else if env.withinTabTimeout tab.id then
    env.oracle tab.id (sortKey.selector.getD "") sortKey.attr
  else
    { tabId := tab.id, value := none,
      notes := some "Extraction timed out (tab may be loading)" }

/-- src/background/sortOperations.ts, extractValuesFromTabs: when every
per-tab promise settles before the global timer, the settled results are
returned (the per-tab closures never reject, so the allSettled rejected
branch is dead code); when the global timer fires first, the catch block
returns a fresh null result with the global-timeout note for EVERY tab,
including tabs whose extraction had already resolved with a value. -/
def extractValuesFromTabs (env : ExtractionEnv) (tabs : List TabWithValue)
    (sortKey : SortKey) : List ExtractedValue :=
  if tabs.all (fun t => env.beforeGlobalTimeout t.id) then
    tabs.map (extractOne env sortKey)
  else
    tabs.map (fun t =>
      { tabId := t.id, value := none,
        notes := some "Global timeout - tab may be slow to load" })

/-- The tabsWithValues decoration step of performSort: each tab is paired
with the value and rawText of the first extraction result carrying its id
(undefined, hence none, when the id is absent). -/
def tabsWithValues (tabs : List TabWithValue) (extractedValues : List ExtractedValue) :
    List TabWithValue :=
  tabs.map (fun tab =>
    let extracted := extractedValues.find? (fun e => e.tabId == tab.id)
    { tab with
      extractedValue := extracted.bind (fun e => e.value)
      rawText := extracted.bind (fun e => e.rawText) })

/-- src/background/sortOperations.ts, performSort, up to the sorted list:
an empty tab set returns immediately; otherwise values are extracted once,
with sortKeys[0] as the only key ever handed to the extractor, the tabs are
decorated and sorted.  The empty-key case models the host error on
sortKeys[0] of an empty chain and is unreachable, the callers validate the
chain. -/
def performSortTabs (env : ExtractionEnv) (tabs : List TabWithValue)
    (sortKeys : List SortKey) (missingValuePolicy : MissingValuePolicy) :
    List TabWithValue :=
  if tabs.isEmpty then []
  else
    match sortKeys with
    | [] => []
    | firstKey :: _ =>
      let extractedValues := extractValuesFromTabs env tabs firstKey
      let decorated := tabsWithValues tabs extractedValues
      stableSort decorated (createComparator sortKeys missingValuePolicy)

/-- src/config/constants.ts, LIMITS.CONCURRENT_INJECTIONS, documented there
as the maximum number of concurrent content script injections. -/
def LIMITS_CONCURRENT_INJECTIONS : ℕ := 8

/-- src/config/constants.ts, TIMEOUTS.GLOBAL_EXTRACTION in milliseconds. -/
def TIMEOUTS_GLOBAL_EXTRACTION : ℕ := 20000

/-- How many script-channel establishments extractValuesFromTabs starts
before any extraction completes: the tabs.map call creates every per-tab
promise in one synchronous pass, and each one (when the selector is
truthy) immediately begins extractValueFromTab; no semaphore, pool or
batch gate exists anywhere on this path, so every candidate tab's
extraction is in flight before the first completion. -/
def extractionsStartedBeforeAnyCompletion (tabs : List TabWithValue)
    (sortKey : SortKey) : ℕ :=
  if selectorFalsy sortKey then 0 else tabs.length

/-- One chrome.tabs.move call issued by moveTabs: the tab, the window it is
moved within, and the target index. -/
structure MoveOp where
  tabId : Int
  windowId : Int
  index : ℕ
deriving DecidableEq

/-- Iteration order of the tabsByWindow Map in moveTabs: JS Maps iterate in
insertion order, which is the order of first occurrence of each windowId in
the sorted tab list. -/
def windowIdsInOrder (tabs : List TabWithValue) : List Int :=
  tabs.foldl (fun acc t => if t.windowId ∈ acc then acc else acc ++ [t.windowId]) []

/-- The per-window body of moveTabs in src/background/tabs.ts: the window's
tabs (in sorted order) split into pinned and unpinned; with
keepPinnedStatic the unpinned tabs are assigned successive target indices
starting at the pinned count and the pinned tabs are not moved at all;
without it every tab is assigned successive indices from zero. -/
def windowMoves (tabs : List TabWithValue) (keepPinnedStatic : Bool) (w : Int) :
    List MoveOp :=
  let windowTabs := tabs.filter (fun t => t.windowId == w)
  let pinnedTabs := windowTabs.filter (fun t => t.pinned)
  let unpinnedTabs := windowTabs.filter (fun t => !t.pinned)
  if keepPinnedStatic then
    unpinnedTabs.enum.map (fun p =>
      { tabId := p.2.id, windowId := w, index := pinnedTabs.length + p.1 })
  else
    windowTabs.enum.map (fun p => { tabId := p.2.id, windowId := w, index := p.1 })

/-- src/background/tabs.ts, moveTabs, as the list of chrome.tabs.move calls
it issues in order. -/
def moveTabs (tabs : List TabWithValue) (keepPinnedStatic : Bool) : List MoveOp :=
  (windowIdsInOrder tabs).flatMap (windowMoves tabs keepPinnedStatic)

/-- Model of chrome.tabs.move on one window's tab strip: the tab with the
given id is removed and reinserted so that its final position is the target
index, clamped to the end of the strip; a move for an id that is not in the
window does nothing (the browser would reject the call, and moveTabs logs
and continues). -/
def applyMove (window : List TabWithValue) (move : MoveOp) : List TabWithValue :=
  match window.find? (fun t => t.id == move.tabId) with
  | none => window
  | some tab =>
    (window.eraseP (fun t => t.id == move.tabId)).insertIdx
      (min move.index (window.length - 1)) tab

/-- Apply a sequence of move operations to a window's tab strip. -/
def applyMoves (window : List TabWithValue) (moves : List MoveOp) : List TabWithValue :=
  moves.foldl applyMove window

/-- A tab as returned by chrome.tabs.query: src/background/tabs.ts reads
id, title, url, favIconUrl, index, pinned, windowId and groupId, of which
id, url and title are optional in the chrome API. -/
structure ChromeTab where
  id : Option Int := none
  title : Option String := none
  url : Option String := none
  favIconUrl : Option String := none
  index : Int := 0
  pinned : Bool := false
  windowId : Int := 0
  groupId : Option Int := none
deriving DecidableEq

/-- The addressability filter of getTargetTabs: drop tabs without an id or
url and tabs on browser-internal, extension, about, local-file or web-store
URLs. -/
def addressableTab (t : ChromeTab) : Bool :=
  t.id.isSome &&
  match t.url with
  | none => false
  | some u =>
    !(beginsWith u "chrome://" || beginsWith u "chrome-extension://" ||
      beginsWith u "edge://" || beginsWith u "about:" || beginsWith u "file://" ||
      hasRun u.toList ("chrome.google.com/webstore".toList))

/-- The TabInfo record getTargetTabs builds from a chrome tab. -/
def toTabInfo (t : ChromeTab) : TabWithValue :=
  { id := t.id.getD 0, title := t.title.getD "", url := t.url.getD "",
    index := t.index, pinned := t.pinned, windowId := t.windowId,
    groupId := t.groupId }

/-- JS truthiness of the urlRegex argument: undefined and the empty string
are falsy, so no filtering is attempted for them. -/
def regexTruthy : Option String → Bool
  | none => false
  | some s => !(s == "")

/-- src/background/tabs.ts, getTargetTabs, parameterized by the host RegExp
engine: compiling the pattern (case-insensitively) either fails — the JS
catch block leaves filteredTabs untouched, so an invalid pattern filters
nothing and the function still returns normally — or yields a URL test used
to keep matching tabs. -/
def getTargetTabs (engine : String → Option (String → Bool))
    (urlRegex : Option String) (allTabs : List ChromeTab) : List TabWithValue :=
  let filteredTabs := allTabs.filter addressableTab
  let finalTabs :=
    if regexTruthy urlRegex then
      match engine (urlRegex.getD "") with
      | none => filteredTabs
      | some test => filteredTabs.filter (fun t => test (t.url.getD ""))
    else filteredTabs
  finalTabs.map toTabInfo

/-- A number sort key with a selector, ascending. -/
def keyNumberAsc : SortKey :=
  { selector := some ".price", parseAs := some ParseType.number }

/-- A tab whose extraction produced no value. -/
def tabNoValue : TabWithValue := { id := 1, index := 0 }

/-- A tab whose extraction produced the numeric string seven. -/
def tabSeven : TabWithValue := { id := 2, index := 1, extractedValue := some "7" }

/-- Claim C2, counterexample: with missingValuePolicy error and a
null-versus-non-null comparison, the comparator silently resolves the pair
(the null tab is placed first, the behavior of the first policy) and the
sort returns an ordinary ordered list; no failure of any kind reaches the
caller. -/
theorem errorPolicy_silent_cex :
    createComparator [keyNumberAsc] MissingValuePolicy.error tabNoValue tabSeven = -1 ∧
    stableSort [tabSeven, tabNoValue]
      (createComparator [keyNumberAsc] MissingValuePolicy.error) = [tabNoValue, tabSeven] := by
  decide

/-- Claim C2, amended: the comparator treats missingValuePolicy error
exactly like first — the one-sided-null branches test only whether the
policy is last — so an error policy is resolved silently by placing the
null-valued side before, and no explicit failure is ever surfaced. -/
theorem errorPolicy_behaves_like_first (sortKeys : List SortKey) (a b : TabWithValue) :
    createComparator sortKeys MissingValuePolicy.error a b =
    createComparator sortKeys MissingValuePolicy.first a b := by
  unfold createComparator
  induction sortKeys with
  | nil => rfl
  | cons k rest ih =>
    simp only [comparatorLoop]
    cases parseValue a.extractedValue k.parseAs <;>
      cases parseValue b.extractedValue k.parseAs <;>
      simp [ih]

/-- Environment in which every tab's extraction resolves promptly with the
value fortytwo. -/
def envResolvesFortyTwo : ExtractionEnv :=
  { oracle := fun tabId _ _ => { tabId := tabId, value := some "42", rawText := some "42" },
    withinTabTimeout := fun _ => true,
    beforeGlobalTimeout := fun tabId => tabId == 1 }

/-- A bare tab with id one. -/
def tabIdOne : TabWithValue := { id := 1, index := 0 }

/-- A bare tab with id two. -/
def tabIdTwo : TabWithValue := { id := 2, index := 1 }

/-- Claim C4: when the global timeout fires (here tab two has not settled),
the catch block of extractValuesFromTabs rebuilds the WHOLE result list
with null values and the global-timeout note — including tab one, whose
extraction had already resolved with the value fortytwo, as the second
conjunct shows.  The code's own comment says it returns partial results
there; it does not, so the claim's core (resolved tabs keep their values)
fails while cardinality (one result per input tab) holds. -/
theorem globalTimeout_discards_resolved_values :
    extractValuesFromTabs envResolvesFortyTwo [tabIdOne, tabIdTwo] keyNumberAsc =
      [ { tabId := 1, value := none,
          notes := some "Global timeout - tab may be slow to load" },
        { tabId := 2, value := none,
          notes := some "Global timeout - tab may be slow to load" } ] ∧
    extractOne envResolvesFortyTwo keyNumberAsc tabIdOne =
      { tabId := 1, value := some "42", rawText := some "42" } := by
  decide

/-- Nine tabs with distinct ids. -/
def nineTabs : List TabWithValue :=
  (List.range 9).map (fun i => { id := (i : ℤ), index := (i : ℤ) })

/-- Claim C5: with nine candidate tabs and a selector-bearing key, all nine
script-channel establishments are started before any completes — the
orchestrator has no semaphore or pool, and the configured limit
LIMITS.CONCURRENT_INJECTIONS equal to eight (declared in
src/config/constants.ts as the maximum concurrent content script
injections) is never consulted on this path — so the in-flight count
exceeds the documented bound. -/
theorem concurrency_bound_never_enforced :
    extractionsStartedBeforeAnyCompletion nineTabs keyNumberAsc = 9 ∧
    LIMITS_CONCURRENT_INJECTIONS <
      extractionsStartedBeforeAnyCompletion nineTabs keyNumberAsc := by
  decide

/-- The currency rule exactly as the spec words it: strip every character
that is not a digit, dot or comma; drop EVERY comma; parse the remaining
string as floating point. -/
def specCurrencyParse (text : String) : Option ℚ :=
  let cleaned := text.toList.filter (fun c => Char.isDigit c || c == '.' || c == ',')
  let normalized := cleaned.filter (fun c => !(c == ','))
  parseFloatLeading (String.mk normalized)

/-- Claim C7, counterexample: on a value with two thousands separators the
code parses 1234 — cleaned is 1,234,567.89, the single replace drops only
the first comma giving 1234,567.89, and parseFloat stops at the remaining
comma — not the 1234567.89 the claim states (which is what the drop-every-
comma spec rule computes). -/
theorem parsePrice_multi_separator_cex :
    parsePriceValue "$1,234,567.89" = some 1234 ∧
    parsePriceValue "$1,234,567.89" ≠ some (Rat.divInt 123456789 100) ∧
    specCurrencyParse "$1,234,567.89" = some (Rat.divInt 123456789 100) := by
  decide


/-- Dropping the first comma is the same as dropping every comma when there
is at most one. -/
theorem removeFirstComma_eq_filter (l : List Char) (h : l.count ',' ≤ 1) :
    removeFirstComma l = l.filter (fun c => !(c == ',')) := by
  induction l with
  | nil => rfl
  | cons c cs ih =>
    rw [removeFirstComma]
    by_cases hc : c = ','
    · subst hc
      rw [if_pos (by simp)]
      rw [List.filter_cons_of_neg (by simp)]
      rw [List.count_cons_self] at h
      have hmem : ',' ∉ cs := List.count_eq_zero.mp (by omega)
      symm
      apply List.filter_eq_self.mpr
      intro a ha
      have hne : a ≠ ',' := fun he => hmem (he ▸ ha)
      simp [hne]
    · rw [if_neg (by simp [hc])]
      rw [List.filter_cons_of_pos (by simp [hc])]
      rw [List.count_cons_of_ne (Ne.symm hc)] at h
      rw [ih h]

/-- Claim C7, amended: currency parsing removes every character that is not
a digit, dot or comma, then drops only the FIRST comma and parses the
longest leading decimal prefix (null when no digit leads).  Whenever the
cleaned text carries at most one comma this coincides with the spec's
drop-every-comma rule, so single-thousands-separator values parse as the
claim states; with more than one separator the parses diverge as the
counterexample shows. -/
theorem parsePrice_single_separator_ok (text : String)
    (h : ((text.toList.filter (fun c => Char.isDigit c || c == '.' || c == ',')).count ',') ≤ 1) :
    parsePriceValue text = specCurrencyParse text := by
  simp only [parsePriceValue, specCurrencyParse]
  rw [removeFirstComma_eq_filter _ h]

/-- Witness for the amended C7 at a single-separator currency string. -/
theorem parsePrice_single_separator_ok_witness :
    parsePriceValue "$1,234.56" = specCurrencyParse "$1,234.56" :=
  parsePrice_single_separator_ok "$1,234.56" (by decide)

/-- A sort key whose selector is the empty string. -/
def keyEmptySelector : SortKey :=
  { selector := some "", parseAs := some ParseType.number }

/-- Environment for a page on which a selector query and the auto-detect
chain would both find the value fourfive. -/
def envRichPage : ExtractionEnv :=
  { oracle := fun tabId _ _ =>
      { tabId := tabId, value := some "4.5", rawText := some "4.5" },
    withinTabTimeout := fun _ => true,
    beforeGlobalTimeout := fun _ => true }

/-- Claim C8, counterexample: with an empty selector the orchestrator's
per-tab branch returns a null value with the note 'No selector provided'
without contacting the tab at all, even though the page (as the oracle
shows) would yield a value — extraction is not performed in auto-detect
mode and the null result does not mean every detector failed. -/
theorem emptySelector_no_autodetect_cex :
    extractOne envRichPage keyEmptySelector tabIdOne =
      { tabId := 1, value := none, notes := some "No selector provided" } ∧
    (envRichPage.oracle 1 "h1" none).value = some "4.5" := by
  decide

/-- Claim C8, amended: whenever the sort key's selector is empty or absent,
the per-tab extraction step of extractValuesFromTabs short-circuits to a
null value with the diagnostic 'No selector provided'; no extraction and no
auto-detection is attempted from the sort pipeline (the detector chain is
reachable only through the separate AUTO_DETECT content-script message). -/
theorem emptySelector_short_circuits (env : ExtractionEnv) (key : SortKey)
    (tab : TabWithValue) (h : selectorFalsy key = true) :
    extractOne env key tab =
      { tabId := tab.id, value := none, notes := some "No selector provided" } := by
  unfold extractOne
  rw [if_pos h]

/-- Witness for the amended C8 at a concrete environment, key and tab. -/
theorem emptySelector_short_circuits_witness :
    extractOne envRichPage { selector := none, direction := Direction.asc } tabIdTwo =
      { tabId := 2, value := none, notes := some "No selector provided" } :=
  emptySelector_short_circuits envRichPage _ tabIdTwo (by decide)

/-- Claim C9: an invalid urlFilterPattern (one the RegExp engine rejects)
fails open — getTargetTabs returns exactly the tab list it returns with no
pattern at all, that is, every addressable tab of the window, and, being a
total function of the engine outcome, never propagates the compile error to
the caller. -/
theorem invalidPattern_fails_open (engine : String → Option (String → Bool))
    (pattern : String) (allTabs : List ChromeTab)
    (h : engine pattern = none) :
    getTargetTabs engine (some pattern) allTabs = getTargetTabs engine none allTabs := by
  simp only [getTargetTabs, regexTruthy, Option.getD_some]
  by_cases hp : (pattern == "") = true
  · simp [hp]
  · simp [hp, h]

/-- An engine that rejects every pattern. -/
def engineRejecting : String → Option (String → Bool) := fun _ => none

/-- A shop tab in the current window. -/
def chromeTabShop : ChromeTab :=
  { id := some 1, url := some "https://a.shop.com", index := 0, windowId := 7 }

/-- A store tab in the current window. -/
def chromeTabStore : ChromeTab :=
  { id := some 2, url := some "https://b.store.com", index := 1, windowId := 7 }

/-- Witness for C9 at a concrete malformed pattern and tab set. -/
theorem invalidPattern_fails_open_witness :
    getTargetTabs engineRejecting (some "[") [chromeTabShop, chromeTabStore] =
      getTargetTabs engineRejecting none [chromeTabShop, chromeTabStore] :=
  invalidPattern_fails_open engineRejecting "[" [chromeTabShop, chromeTabStore] rfl

/-- Claim C10: in a multi-key sort, extraction happens once per tab and
consults only the first key.  First conjunct: performSort extracts with
sortKeys[0] alone, decorates the tabs with those single raw values and
sorts them under the full key chain, each key of which re-parses the same
stored raw value by its own parseAs inside comparatorLoop.  Second
conjunct: replacing the environment by one that agrees with the original
only on the first key's selector and attribute (and on the timing oracles)
cannot change the result — the selectors and attributes of every subsequent
key are never used for extraction. -/
theorem extraction_uses_first_key_only (env envAgree : ExtractionEnv)
    (tabs : List TabWithValue) (firstKey : SortKey) (rest : List SortKey)
    (pol : MissingValuePolicy)
    (horacle : ∀ t, envAgree.oracle t (firstKey.selector.getD "") firstKey.attr =
      env.oracle t (firstKey.selector.getD "") firstKey.attr)
    (hwithin : envAgree.withinTabTimeout = env.withinTabTimeout)
    (hglobal : envAgree.beforeGlobalTimeout = env.beforeGlobalTimeout) :
    performSortTabs env tabs (firstKey :: rest) pol =
      (if tabs.isEmpty then []
       else stableSort (tabsWithValues tabs (extractValuesFromTabs env tabs firstKey))
         (createComparator (firstKey :: rest) pol)) ∧
    performSortTabs envAgree tabs (firstKey :: rest) pol =
      performSortTabs env tabs (firstKey :: rest) pol := by
  constructor
  · rfl
  · have hone : ∀ t, extractOne envAgree firstKey t = extractOne env firstKey t := by
      intro t
      unfold extractOne
      by_cases hsf : selectorFalsy firstKey = true
      · rw [if_pos hsf, if_pos hsf]
      · rw [if_neg hsf, if_neg hsf, hwithin, horacle]
    have hvals : extractValuesFromTabs envAgree tabs firstKey =
        extractValuesFromTabs env tabs firstKey := by
      unfold extractValuesFromTabs
      rw [hglobal]
      by_cases hg : tabs.all (fun t => env.beforeGlobalTimeout t.id) = true
      · rw [if_pos hg, if_pos hg]
        exact List.map_congr_left (fun t _ => hone t)
      · rw [if_neg hg, if_neg hg]
    simp only [performSortTabs, hvals]

/-- Environment whose oracle answers one for the selector dot-a and nine
for every other selector. -/
def envPrimary : ExtractionEnv :=
  { oracle := fun tabId sel _ =>
      if sel == ".a" then { tabId := tabId, value := some "1" }
      else { tabId := tabId, value := some "9" },
    withinTabTimeout := fun _ => true,
    beforeGlobalTimeout := fun _ => true }

/-- Environment agreeing with envPrimary on the selector dot-a but
answering seven for every other selector. -/
def envAgreeing : ExtractionEnv :=
  { oracle := fun tabId sel _ =>
      if sel == ".a" then { tabId := tabId, value := some "1" }
      else { tabId := tabId, value := some "7" },
    withinTabTimeout := fun _ => true,
    beforeGlobalTimeout := fun _ => true }

/-- A primary key selecting dot-a. -/
def keyDotA : SortKey := { selector := some ".a", parseAs := some ParseType.number }

/-- A secondary key selecting dot-b. -/
def keyDotB : SortKey := { selector := some ".b", parseAs := some ParseType.text }

/-- Witness for C10: two environments that agree only on the first key's
selector produce identical multi-key sort results. -/
theorem extraction_uses_first_key_only_witness :
    performSortTabs envPrimary [tabIdOne, tabIdTwo] [keyDotA, keyDotB]
        MissingValuePolicy.last =
      (if ([tabIdOne, tabIdTwo] : List TabWithValue).isEmpty then []
       else stableSort
         (tabsWithValues [tabIdOne, tabIdTwo]
           (extractValuesFromTabs envPrimary [tabIdOne, tabIdTwo] keyDotA))
         (createComparator [keyDotA, keyDotB] MissingValuePolicy.last)) ∧
    performSortTabs envAgreeing [tabIdOne, tabIdTwo] [keyDotA, keyDotB]
        MissingValuePolicy.last =
      performSortTabs envPrimary [tabIdOne, tabIdTwo] [keyDotA, keyDotB]
        MissingValuePolicy.last :=
  extraction_uses_first_key_only envPrimary envAgreeing [tabIdOne, tabIdTwo] keyDotA
    [keyDotB] MissingValuePolicy.last (fun _ => rfl) rfl rfl

/-- Inserting x into a list containing y places x before y whenever the
insertion relation accepts the pair: x stops at or before the first
related element it meets. -/
theorem orderedInsert_pair_sublist {α : Type} (r : α → α → Prop) [DecidableRel r]
    (x y : α) (l : List α) (hy : y ∈ l) (hr : r x y) :
    [x, y].Sublist (List.orderedInsert r x l) := by
  induction l with
  | nil => cases hy
  | cons c cs ih =>
    rw [List.orderedInsert]
    by_cases hc : r x c
    · rw [if_pos hc]
      exact List.Sublist.cons₂ x (List.singleton_sublist.mpr hy)
    · rw [if_neg hc]
      rcases List.mem_cons.mp hy with heq | hmem
      · exact absurd (heq ▸ hr) hc
      · exact List.Sublist.cons c (ih hmem)

/-- An ordered pair of the input survives insertion sort whenever the sort
relation accepts it: insertion sort never swaps a pair the relation already
orders the input's way. -/
theorem insertionSort_pair_sublist {α : Type} (r : α → α → Prop) [DecidableRel r]
    (x y : α) (l : List α) (hxy : [x, y].Sublist l) (hr : r x y) :
    [x, y].Sublist (List.insertionSort r l) := by
  induction l with
  | nil => simp at hxy
  | cons c cs ih =>
    rw [List.insertionSort]
    cases hxy with
    | cons _ h => exact (ih h).trans (List.sublist_orderedInsert c _)
    | cons₂ _ h =>
      exact orderedInsert_pair_sublist r x y _
        ((List.perm_insertionSort r cs).mem_iff.mpr (List.singleton_sublist.mp h)) hr

/-- A singleton sublist survives enumeration, with an index at least the
starting offset. -/
theorem single_sublist_enumFrom {α : Type} (y : α) :
    ∀ (l : List α) (n : ℕ), [y].Sublist l →
      ∃ j, n ≤ j ∧ [(j, y)].Sublist (l.enumFrom n) := by
  intro l
  induction l with
  | nil => intro n h; simp at h
  | cons c cs ih =>
    intro n h
    cases h with
    | cons _ h2 =>
      obtain ⟨j, hnj, hsub⟩ := ih (n + 1) h2
      exact ⟨j, Nat.le_of_succ_le hnj, hsub.cons (n, c)⟩
    | cons₂ _ h2 =>
      exact ⟨n, Nat.le_refl n, List.Sublist.cons₂ (n, y) (List.nil_sublist _)⟩

/-- A pair sublist survives enumeration, with strictly increasing
indices. -/
theorem pair_sublist_enumFrom {α : Type} (x y : α) :
    ∀ (l : List α) (n : ℕ), [x, y].Sublist l →
      ∃ i j, i < j ∧ [(i, x), (j, y)].Sublist (l.enumFrom n) := by
  intro l
  induction l with
  | nil => intro n h; simp at h
  | cons c cs ih =>
    intro n h
    cases h with
    | cons _ h2 =>
      obtain ⟨i, j, hij, hsub⟩ := ih (n + 1) h2
      exact ⟨i, j, hij, hsub.cons (n, c)⟩
    | cons₂ _ h2 =>
      obtain ⟨j, hnj, hsub⟩ := single_sublist_enumFrom y cs (n + 1) h2
      exact ⟨n, j, Nat.lt_of_succ_le hnj, List.Sublist.cons₂ (n, x) hsub⟩

/-- Two tabs tie on a key exactly when the comparator's key step neither
resolves nor returns: both parse to null, or both parse to values whose raw
comparison is zero. -/
def tieOnKey (key : SortKey) (a b : TabWithValue) : Prop :=
  match parseValue a.extractedValue key.parseAs, parseValue b.extractedValue key.parseAs with
  | none, none => True
  | some aVal, some bVal => rawComparison key aVal bVal = 0
  | _, _ => False

/-- When two tabs tie on every key, the comparator loop falls through to
the difference of their window position indices. -/
theorem comparatorLoop_of_ties (pol : MissingValuePolicy) (a b : TabWithValue)
    (sortKeys : List SortKey) (htie : ∀ k ∈ sortKeys, tieOnKey k a b) :
    comparatorLoop pol a b sortKeys = ((a.index - b.index : ℤ) : ℚ) := by
  induction sortKeys with
  | nil => rfl
  | cons k rest ih =>
    have hk := htie k (List.mem_cons_self k rest)
    have hrest : ∀ k2 ∈ rest, tieOnKey k2 a b :=
      fun k2 hk2 => htie k2 (List.mem_cons_of_mem k hk2)
    rw [comparatorLoop]
    unfold tieOnKey at hk
    cases hpa : parseValue a.extractedValue k.parseAs with
    | none =>
      cases hpb : parseValue b.extractedValue k.parseAs with
      | none => exact ih hrest
      | some bv =>
        rw [hpa, hpb] at hk
        exact (show False from hk).elim
    | some av =>
      cases hpb : parseValue b.extractedValue k.parseAs with
      | none =>
        rw [hpa, hpb] at hk
        exact (show False from hk).elim
      | some bv =>
        rw [hpa, hpb] at hk
        have hk2 : rawComparison k av bv = 0 := hk
        simp only [hk2, ne_eq, not_true_eq_false, if_false]
        exact ih hrest

/-- Claim C1: sorting is stable.  For a tab list in collection order
(window position indices strictly increasing along the list, which is how
getTargetTabs returns tabs), any two tabs that tie on every sort key keep
their input relative order in the sorted output: the comparator falls
through to the difference of their collection-order positions, and the
sort's own wrapper breaks any remaining tie by input position. -/
theorem stableSort_stable_on_ties (tabs : List TabWithValue) (sortKeys : List SortKey)
    (pol : MissingValuePolicy) (a b : TabWithValue)
    (hmono : tabs.Pairwise (fun s t => s.index < t.index))
    (hab : [a, b].Sublist tabs)
    (htie : ∀ k ∈ sortKeys, tieOnKey k a b) :
    [a, b].Sublist (stableSort tabs (createComparator sortKeys pol)) := by
  have hidx : a.index < b.index := by
    have hp := List.Pairwise.sublist hab hmono
    exact (List.pairwise_cons.mp hp).1 b (List.mem_singleton.mpr rfl)
  have hcmp : createComparator sortKeys pol a b = ((a.index - b.index : ℤ) : ℚ) :=
    comparatorLoop_of_ties pol a b sortKeys htie
  have hneg : createComparator sortKeys pol a b < 0 := by
    rw [hcmp]
    have hlt : (a.index - b.index : ℤ) < 0 := by omega
    exact_mod_cast hlt
  obtain ⟨i, j, hij, hsub⟩ := pair_sublist_enumFrom a b tabs 0 hab
  have hr : effectiveCompare (createComparator sortKeys pol) (i, a) (j, b) ≤ 0 := by
    unfold effectiveCompare
    dsimp only
    rw [if_pos (ne_of_lt hneg)]
    exact le_of_lt hneg
  have hpair := insertionSort_pair_sublist
    (fun x y => effectiveCompare (createComparator sortKeys pol) x y ≤ 0)
    (i, a) (j, b) tabs.enum hsub hr
  have hmap := List.Sublist.map Prod.snd hpair
  unfold stableSort
  simpa using hmap

/-- A tab with no extracted value at window position zero. -/
def tabTieOne : TabWithValue := { id := 21, index := 0 }

/-- A tab with no extracted value at window position one. -/
def tabTieTwo : TabWithValue := { id := 22, index := 1 }

/-- Witness for C1 at a concrete fully-tied pair. -/
theorem stableSort_stable_on_ties_witness :
    [tabTieOne, tabTieTwo].Sublist
      (stableSort [tabTieOne, tabTieTwo]
        (createComparator [keyNumberAsc] MissingValuePolicy.last)) :=
  stableSort_stable_on_ties [tabTieOne, tabTieTwo] [keyNumberAsc]
    MissingValuePolicy.last tabTieOne tabTieTwo
    (by decide)
    (List.Sublist.refl _)
    (by
      intro k hk
      rw [List.mem_singleton] at hk
      subst hk
      exact trivial)

/-- Inserting into a list whose p-satisfying elements all precede its
p-violating elements preserves that shape, provided the relation strictly
orders every p-satisfying element before every p-violating one. -/
theorem orderedInsert_pairwise_blocks {α : Type} (r : α → α → Prop) [DecidableRel r]
    (p : α → Prop) (hsep : ∀ a b, p a → ¬ p b → r a b ∧ ¬ r b a) (z : α) :
    ∀ m : List α, m.Pairwise (fun a b => p b → p a) →
      (List.orderedInsert r z m).Pairwise (fun a b => p b → p a) := by
  intro m
  induction m with
  | nil =>
    intro _
    exact List.pairwise_singleton _ z
  | cons c cs ih =>
    intro hm
    obtain ⟨hc, hcs⟩ := List.pairwise_cons.mp hm
    rw [List.orderedInsert]
    by_cases hrzc : r z c
    · rw [if_pos hrzc]
      refine List.pairwise_cons.mpr ⟨?_, hm⟩
      intro w hw hpw
      by_cases hpz : p z
      · exact hpz
      · exfalso
        rcases List.mem_cons.mp hw with heq | hmem
        · have hpc : p c := heq ▸ hpw
          exact (hsep c z hpc hpz).2 hrzc
        · have hpc : p c := hc w hmem hpw
          exact (hsep c z hpc hpz).2 hrzc
    · rw [if_neg hrzc]
      refine List.pairwise_cons.mpr ⟨?_, ih hcs⟩
      intro w hw hpw
      have hw2 : w ∈ z :: cs := (List.perm_orderedInsert r z cs).mem_iff.mp hw
      rcases List.mem_cons.mp hw2 with hwz | hmem
      · subst hwz
        by_cases hpc : p c
        · exact hpc
        · exact (hrzc (hsep w c hpw hpc).1).elim
      · exact hc w hmem hpw

/-- Insertion sort with a relation that strictly orders every p-satisfying
element before every p-violating one produces output where no p-violating
element precedes a p-satisfying one. -/
theorem insertionSort_pairwise_blocks {α : Type} (r : α → α → Prop) [DecidableRel r]
    (p : α → Prop) (hsep : ∀ a b, p a → ¬ p b → r a b ∧ ¬ r b a) (l : List α) :
    (List.insertionSort r l).Pairwise (fun a b => p b → p a) := by
  induction l with
  | nil => exact List.Pairwise.nil
  | cons c cs ih =>
    rw [List.insertionSort]
    exact orderedInsert_pairwise_blocks r p hsep c _ ih

/-- A tab parses to null under every key of the chain. -/
def allKeysNull (sortKeys : List SortKey) (t : TabWithValue) : Prop :=
  ∀ k ∈ sortKeys, parseValue t.extractedValue k.parseAs = none

/-- Under the last policy, a tab with at least one parseable key compares
strictly before a tab that is null under every key, in both directions, and
independently of every key's direction: the one-sided-null branch fires at
the first key where the parseable tab has a value, before any direction
negation is reached. -/
theorem comparatorLoop_nonnull_vs_null (sortKeys : List SortKey) (a b : TabWithValue)
    (ha : ¬ allKeysNull sortKeys a) (hb : allKeysNull sortKeys b) :
    comparatorLoop MissingValuePolicy.last a b sortKeys = -1 ∧
    comparatorLoop MissingValuePolicy.last b a sortKeys = 1 := by
  induction sortKeys with
  | nil => exact absurd (fun k hk => absurd hk (List.not_mem_nil k)) ha
  | cons k rest ih =>
    have hbk : parseValue b.extractedValue k.parseAs = none :=
      hb k (List.mem_cons_self k rest)
    have hbrest : allKeysNull rest b := fun k2 hk2 => hb k2 (List.mem_cons_of_mem k hk2)
    rw [comparatorLoop, comparatorLoop]
    cases hpa : parseValue a.extractedValue k.parseAs with
    | none =>
      rw [hbk]
      have harest : ¬ allKeysNull rest a := by
        intro hall
        apply ha
        intro k2 hk2
        rcases List.mem_cons.mp hk2 with heq | hmem
        · exact heq ▸ hpa
        · exact hall k2 hmem
      exact ih harest hbrest
    | some av =>
      rw [hbk]
      exact ⟨by simp, by simp⟩

/-- Claim C3: under missingValuePolicy last, in the sorted output no tab
that parses to null under every key ever precedes a tab with at least one
parseable key — every null-valued tab ends up after every non-null-valued
tab, whatever each key's direction, because the null-placement branch fires
before direction negation is reached. -/
theorem placeLast_nulls_after_nonnulls (tabs : List TabWithValue) (sortKeys : List SortKey) :
    (stableSort tabs (createComparator sortKeys MissingValuePolicy.last)).Pairwise
      (fun x y => allKeysNull sortKeys x → allKeysNull sortKeys y) := by
  have hsep : ∀ a b : ℕ × TabWithValue,
      (¬ allKeysNull sortKeys a.2) → ¬ (¬ allKeysNull sortKeys b.2) →
      (effectiveCompare (createComparator sortKeys MissingValuePolicy.last) a b ≤ 0 ∧
       ¬ (effectiveCompare (createComparator sortKeys MissingValuePolicy.last) b a ≤ 0)) := by
    intro a b hpa hpb
    have hb : allKeysNull sortKeys b.2 := not_not.mp hpb
    obtain ⟨h1, h2⟩ := comparatorLoop_nonnull_vs_null sortKeys a.2 b.2 hpa hb
    constructor
    · unfold effectiveCompare
      dsimp only
      rw [show createComparator sortKeys MissingValuePolicy.last a.2 b.2 = -1 from h1]
      norm_num
    · unfold effectiveCompare
      dsimp only
      rw [show createComparator sortKeys MissingValuePolicy.last b.2 a.2 = 1 from h2]
      norm_num
  have h := insertionSort_pairwise_blocks
    (fun x y => effectiveCompare (createComparator sortKeys MissingValuePolicy.last) x y ≤ 0)
    (fun x : ℕ × TabWithValue => ¬ allKeysNull sortKeys x.2) hsep tabs.enum
  unfold stableSort
  rw [List.pairwise_map]
  refine h.imp ?_
  intro x y hxy hx
  by_contra hy
  exact hxy hy hx

/-- Inserting at the boundary of a concatenation prepends to the right
part. -/
theorem insertIdx_at_boundary {α : Type} (x : α) :
    ∀ (A B : List α), (A ++ B).insertIdx A.length x = A ++ x :: B := by
  intro A
  induction A with
  | nil => intro B; rfl
  | cons a as ih =>
    intro B
    show a :: (as ++ B).insertIdx as.length x = a :: (as ++ x :: B)
    rw [ih]

/-- When exactly one element of a list satisfies the test, find? returns
it. -/
theorem find?_of_unique {α : Type} (p : α → Bool) (x : α) :
    ∀ l : List α, x ∈ l → p x = true → (∀ y ∈ l, p y = true → y = x) →
      l.find? p = some x := by
  intro l
  induction l with
  | nil => intro h; cases h
  | cons c cs ih =>
    intro hx hp huniq
    by_cases hc : p c = true
    · rw [List.find?_cons_of_pos _ hc]
      rw [huniq c (List.mem_cons_self c cs) hc]
    · rw [List.find?_cons_of_neg _ hc]
      rcases List.mem_cons.mp hx with heq | hmem
      · exact absurd (heq ▸ hp) hc
      · exact ih hmem hp (fun y hy hpy => huniq y (List.mem_cons_of_mem c hy) hpy)

/-- Shifting the start of an enumeration adds the shift to every index. -/
theorem enumFrom_shift {α : Type} (n : ℕ) :
    ∀ (l : List α) (m : ℕ),
      l.enumFrom (n + m) = (l.enumFrom m).map (fun p => (n + p.1, p.2)) := by
  intro l
  induction l with
  | nil => intro m; rfl
  | cons c cs ih =>
    intro m
    show (n + m, c) :: cs.enumFrom (n + m + 1) = (n + m, c) :: (cs.enumFrom (m + 1)).map _
    rw [show n + m + 1 = n + (m + 1) from rfl, ih (m + 1)]

/-- The payload of an enumerated element is an element of the base list. -/
theorem enumFrom_snd_mem {α : Type} (x : ℕ × α) :
    ∀ (l : List α) (n : ℕ), x ∈ l.enumFrom n → x.2 ∈ l := by
  intro l
  induction l with
  | nil => intro n h; cases h
  | cons c cs ih =>
    intro n h
    rcases List.mem_cons.mp h with heq | hmem
    · rw [heq]
      exact List.mem_cons_self c cs
    · exact List.mem_cons_of_mem c (ih (n + 1) hmem)

/-- Move operations assigning successive target indices, starting at the
length of an untouched prefix, to a permutation of the suffix: applying
them sorts the suffix into the commanded order while never touching the
prefix.  This is the engine behind the keepPinnedStatic guarantee: the
prefix is the pinned block, the commanded order is the sorted unpinned
list. -/
theorem applyMoves_assigns (w : Int) :
    ∀ (U A R : List TabWithValue),
      R.Perm U →
      ((A ++ R).map TabWithValue.id).Nodup →
      applyMoves (A ++ R)
        ((U.enumFrom A.length).map
          (fun p => { tabId := p.2.id, windowId := w, index := p.1 })) = A ++ U := by
  intro U
  induction U with
  | nil =>
    intro A R hperm _
    rw [List.Perm.eq_nil hperm]
    rfl
  | cons u U2 ih =>
    intro A R hperm hnodup
    have huR : u ∈ R := hperm.mem_iff.mpr (List.mem_cons_self u U2)
    obtain ⟨l1, l2, hR⟩ := List.append_of_mem huR
    subst hR
    have hn := hnodup
    rw [List.map_append, List.nodup_append] at hn
    obtain ⟨hnA, hnR, hdisj⟩ := hn
    have hnR2 := hnR
    rw [List.map_append, List.nodup_append] at hnR2
    obtain ⟨hn1, hn2, hd2⟩ := hnR2
    have huid2 : u.id ∈ (u :: l2).map TabWithValue.id :=
      List.mem_map_of_mem TabWithValue.id (List.mem_cons_self u l2)
    have hA : ∀ a ∈ A, ¬ a.id = u.id := by
      intro a ha hh
      have h1 : a.id ∈ A.map TabWithValue.id := List.mem_map_of_mem TabWithValue.id ha
      have h2 : a.id ∈ (l1 ++ u :: l2).map TabWithValue.id := by
        rw [hh, List.map_append]
        exact List.mem_append_right _ huid2
      exact hdisj h1 h2
    have hl1 : ∀ a ∈ l1, ¬ a.id = u.id := by
      intro a ha hh
      have h1 : a.id ∈ l1.map TabWithValue.id := List.mem_map_of_mem TabWithValue.id ha
      exact hd2 h1 (hh ▸ huid2)
    have hl2 : ∀ a ∈ l2, ¬ a.id = u.id := by
      intro a ha hh
      have h1 : u.id ∈ l2.map TabWithValue.id := by
        rw [← hh]
        exact List.mem_map_of_mem TabWithValue.id ha
      rw [List.map_cons, List.nodup_cons] at hn2
      exact hn2.1 h1
    -- the first issued move finds u, erases it and reinserts it right after A
    have hfind : (A ++ (l1 ++ u :: l2)).find? (fun t => t.id == u.id) = some u := by
      apply find?_of_unique
      · exact List.mem_append_right A (List.mem_append_right l1 (List.mem_cons_self u l2))
      · simp
      · intro y hy hpy
        have hyid : y.id = u.id := by simpa using hpy
        rcases List.mem_append.mp hy with hyA | hyR
        · exact absurd hyid (hA y hyA)
        · rcases List.mem_append.mp hyR with hy1 | hy12
          · exact absurd hyid (hl1 y hy1)
          · rcases List.mem_cons.mp hy12 with heq | hy2
            · exact heq
            · exact absurd hyid (hl2 y hy2)
    have herase : (A ++ (l1 ++ u :: l2)).eraseP (fun t => t.id == u.id) =
        A ++ (l1 ++ l2) := by
      rw [List.eraseP_append_right _ (by intro b hb; simpa using hA b hb)]
      rw [List.eraseP_append_right _ (by intro b hb; simpa using hl1 b hb)]
      rw [List.eraseP_cons_of_pos (by simp)]
    have hlen : min A.length ((A ++ (l1 ++ u :: l2)).length - 1) = A.length := by
      simp only [List.length_append, List.length_cons]
      omega
    have hstep : applyMove (A ++ (l1 ++ u :: l2))
        { tabId := u.id, windowId := w, index := A.length } =
        (A ++ [u]) ++ (l1 ++ l2) := by
      unfold applyMove
      rw [hfind]
      dsimp only
      rw [herase, hlen, insertIdx_at_boundary]
      rw [List.append_assoc]
      rfl
    -- reindex the remaining moves and close with the induction hypothesis
    have hperm2 : (l1 ++ l2).Perm U2 := by
      have h1 : (u :: (l1 ++ l2)).Perm (l1 ++ u :: l2) := List.perm_middle.symm
      exact (h1.trans hperm).cons_inv
    have hpermList : ((A ++ [u]) ++ (l1 ++ l2)).Perm (A ++ (l1 ++ u :: l2)) := by
      rw [List.append_assoc]
      exact List.Perm.append_left A (@List.perm_middle _ u l1 l2).symm
    have hnodup2 : (((A ++ [u]) ++ (l1 ++ l2)).map TabWithValue.id).Nodup :=
      ((hpermList.map TabWithValue.id).nodup_iff).mpr hnodup
    have hrest := ih (A ++ [u]) (l1 ++ l2) hperm2 hnodup2
    show applyMoves (A ++ (l1 ++ u :: l2))
      (({ tabId := u.id, windowId := w, index := A.length } : MoveOp) ::
        (U2.enumFrom (A.length + 1)).map
          (fun p => { tabId := p.2.id, windowId := w, index := p.1 })) = A ++ u :: U2
    show applyMoves (applyMove (A ++ (l1 ++ u :: l2))
        { tabId := u.id, windowId := w, index := A.length })
      ((U2.enumFrom (A.length + 1)).map
        (fun p => { tabId := p.2.id, windowId := w, index := p.1 })) = A ++ u :: U2
    rw [hstep]
    have hlen2 : (A ++ [u]).length = A.length + 1 := by simp
    rw [hlen2] at hrest
    rw [hrest]
    simp

/-- Reindexing bridge: enumerating from an offset and taking the index
equals enumerating from zero and adding the offset, composed with the move
constructor. -/
theorem enumFrom_map_move (w : Int) (n : ℕ) (U : List TabWithValue) :
    (U.enumFrom n).map
        (fun p => ({ tabId := p.2.id, windowId := w, index := p.1 } : MoveOp)) =
      U.enum.map (fun p => { tabId := p.2.id, windowId := w, index := n + p.1 }) := by
  have h := enumFrom_shift n U 0
  rw [show n + 0 = n from rfl] at h
  rw [show U.enum = U.enumFrom 0 from rfl, h, List.map_map]
  rfl

/-- Claim C6: with keepPinnedStatic true, reordering moves only unpinned
tabs.  First conjunct: every issued move operation names an unpinned tab of
the sorted list.  Second conjunct: for any window whose pre-sort strip is a
permutation of that window's share of the sorted list, with the pinned tabs
occupying the leading index range (as the browser guarantees) and tab ids
distinct, applying the issued moves leaves the pinned prefix exactly as it
was — same tabs, same pre-sort relative order, same leading positions,
independent of extracted values — and arranges the unpinned tabs after it
in sorted order at indices starting at the pinned count. -/
theorem keepPinnedStatic_preserves_pinned (tabs : List TabWithValue) (w : Int)
    (win : List TabWithValue)
    (hperm : win.Perm (tabs.filter (fun t => t.windowId == w)))
    (hsplit : win = win.filter (fun t => t.pinned) ++ win.filter (fun t => !t.pinned))
    (hnodup : (win.map TabWithValue.id).Nodup) :
    (∀ m ∈ moveTabs tabs true, ∃ t ∈ tabs, t.id = m.tabId ∧ t.pinned = false) ∧
    applyMoves win (windowMoves tabs true w) =
      win.filter (fun t => t.pinned) ++
        (tabs.filter (fun t => t.windowId == w)).filter (fun t => !t.pinned) := by
  constructor
  · intro m hm
    unfold moveTabs at hm
    rw [List.mem_flatMap] at hm
    obtain ⟨w2, _, hmw⟩ := hm
    simp only [windowMoves, if_true] at hmw
    rw [List.mem_map] at hmw
    obtain ⟨p, hp, hmk⟩ := hmw
    have hp2 := enumFrom_snd_mem p _ 0 hp
    rw [List.mem_filter] at hp2
    obtain ⟨hpw, hup⟩ := hp2
    rw [List.mem_filter] at hpw
    refine ⟨p.2, hpw.1, ?_, ?_⟩
    · rw [← hmk]
    · simpa using hup
  · have hpermU : (win.filter (fun t => !t.pinned)).Perm
        ((tabs.filter (fun t => t.windowId == w)).filter (fun t => !t.pinned)) :=
      hperm.filter _
    have hlenA : (win.filter (fun t => t.pinned)).length =
        ((tabs.filter (fun t => t.windowId == w)).filter (fun t => t.pinned)).length :=
      (hperm.filter _).length_eq
    simp only [windowMoves, if_true]
    rw [← enumFrom_map_move w]
    rw [← hlenA]
    have h := applyMoves_assigns w
      ((tabs.filter (fun t => t.windowId == w)).filter (fun t => !t.pinned))
      (win.filter (fun t => t.pinned)) (win.filter (fun t => !t.pinned))
      hpermU (by rw [← hsplit]; exact hnodup)
    rw [← hsplit] at h
    exact h

/-- A pinned tab in window seven. -/
def tabPinnedTen : TabWithValue :=
  { id := 10, index := 0, pinned := true, windowId := 7, extractedValue := some "9" }

/-- An unpinned tab in window seven. -/
def tabEleven : TabWithValue :=
  { id := 11, index := 1, windowId := 7, extractedValue := some "5" }

/-- Another unpinned tab in window seven. -/
def tabTwelve : TabWithValue :=
  { id := 12, index := 2, windowId := 7, extractedValue := some "3" }

/-- Witness for C6: a three-tab window whose sorted order moves the
unpinned tabs only; the pinned tab keeps index zero. -/
theorem keepPinnedStatic_preserves_pinned_witness :
    (∀ m ∈ moveTabs [tabTwelve, tabPinnedTen, tabEleven] true,
       ∃ t ∈ [tabTwelve, tabPinnedTen, tabEleven], t.id = m.tabId ∧ t.pinned = false) ∧
    applyMoves [tabPinnedTen, tabEleven, tabTwelve]
        (windowMoves [tabTwelve, tabPinnedTen, tabEleven] true 7) =
      [tabPinnedTen, tabEleven, tabTwelve].filter (fun t => t.pinned) ++
        (([tabTwelve, tabPinnedTen, tabEleven].filter
            (fun t => t.windowId == 7)).filter (fun t => !t.pinned)) :=
  keepPinnedStatic_preserves_pinned [tabTwelve, tabPinnedTen, tabEleven] 7
    [tabPinnedTen, tabEleven, tabTwelve] (by decide) (by decide) (by decide)
